import Mathlib

/-!
# smallsh: placeholder expansion, job table and process launcher

A shallow embedding of `src/smallsh.c`.  C strings are lists of characters
(the bytes before the terminating NUL), `pid_t` and `int` are `Int`, and the
heap blocks owned by the session (`parsed_command`, the background table) are
lists indexed from zero.
-/

namespace Smallsh

/-! ## Constants (lines 16-18) -/

/-- Line 16: maximum length of command lines. -/
def MAX_LENGTH : Nat := 2048

/-- Line 17: maximum arguments. -/
def MAX_ARGS : Nat := 512

/-- Line 18: maximum number of background processes. -/
def MAX_BG_PROCESSES : Nat := 100

/-! ## `expand` (lines 96-121) -/

/-- Lines 100-105: walk the string and count every `$`. -/
def count_markers : List Char → Nat → Nat
  | [], count => count
  | c :: path, count => count_markers path (if c = '$' then count + 1 else count)

/-- Line 111, `sprintf(id_string, "%d", id)`: the characters written before
the terminating NUL. -/
def sprintf_d : Int → List Char
  | Int.ofNat n => Nat.toDigits 10 n
  | Int.negSucc n => '-' :: Nat.toDigits 10 (n + 1)

/-- Line 113, `strncpy(expansion, path, n)` into a zero-filled block, for
`n ≤ strlen(path)`: the block then holds the first `n` characters of `path`. -/
def strncpy (path : List Char) (n : Nat) : List Char :=
  path.take n

/-- Lines 114-119: `strcat(expansion, s)` executed `n` times. -/
def strcat_loop : Nat → List Char → List Char → List Char
  | 0, _, expansion => expansion
  | n + 1, s, expansion => strcat_loop n s (expansion ++ s)

/-- Line 112: the number of bytes requested from `calloc`. -/
def expansion_capacity (path : List Char) (id : Int) : Nat :=
  path.length + (sprintf_d id).length * (count_markers path 0 / 2) + 1

/-- Lines 96-121.  `id_string` is an array of 8 bytes, so `sprintf` stays
inside it only when the decimal text has at most 7 characters; otherwise the
call is undefined and the model returns `none`. -/
def expand (path : List Char) (id : Int) : Option (List Char) :=
  let count := count_markers path 0
  let num_id := count / 2
  let remainder := count % 2
  let id_string := sprintf_d id
  if id_string.length + 1 ≤ 8 then
    let expansion := strncpy path (path.length - count)
    let expansion := strcat_loop num_id id_string expansion
    let expansion := strcat_loop remainder ['$'] expansion
    some expansion
  else
    none

/-- The expansion as the specification words it: scanning left to right, each
adjacent pair of `$` becomes `id_string`, every other character stays. -/
def expand_pairs (id_string : List Char) : List Char → List Char
  | '$' :: '$' :: rest => id_string ++ expand_pairs id_string rest
  | c :: rest => c :: expand_pairs id_string rest
  | [] => []

/-! ## Wait statuses

The macros of `<sys/wait.h>` as the C library defines them on the wait status
word: the low seven bits hold the terminating signal, bits 8-15 the exit code. -/

/-- Macro `WTERMSIG(status)`, `status & 0x7f`. -/
def WTERMSIG (status : Int) : Int := status % 128

/-- Macro `WIFEXITED(status)`, `WTERMSIG(status) == 0`. -/
def WIFEXITED (status : Int) : Bool := WTERMSIG status == 0

/-- Macro `WEXITSTATUS(status)`, `(status & 0xff00) >> 8`. -/
def WEXITSTATUS (status : Int) : Int := (status / 256) % 256

/-- Macro `WIFSIGNALED(status)`: the low seven bits are neither 0 (exited) nor
0x7f (stopped). -/
def WIFSIGNALED (status : Int) : Bool := 0 < WTERMSIG status && WTERMSIG status < 127

/-! ## What the shell prints -/

/-- The lines the shell writes to standard output, one constructor per format
string of the source. -/
inductive Output where
  /-- Format `exit value %d` (line 129). -/
  | exit_value (n : Int)
  /-- Format `terminated by signal %d` (lines 131 and 332). -/
  | terminated_by_signal (n : Int)
  /-- Format `background pid is %d` (line 322). -/
  | background_pid_is (pid : Int)
  /-- Format `background pid %d is done: exit value %d` (line 141). -/
  | background_done_exit (pid n : Int)
  /-- Format `background pid %d is done: terminated by signal %d` (line 143). -/
  | background_done_signal (pid n : Int)
  /-- The notice written by `handle_SIGTSTP` on entering foreground-only mode. -/
  | entering_foreground_only
  /-- The notice written by `handle_SIGTSTP` on leaving foreground-only mode. -/
  | exiting_foreground_only
  deriving DecidableEq

/-- Lines 127-133. -/
def print_status (status_value : Int) : Output :=
  if WIFEXITED status_value then Output.exit_value (WEXITSTATUS status_value)
  else Output.terminated_by_signal (WTERMSIG status_value)

/-- Lines 139-145. -/
def print_background_status (pid : Int) (status_value : Int) : Output :=
  if WIFEXITED status_value then Output.background_done_exit pid (WEXITSTATUS status_value)
  else Output.background_done_signal pid (WTERMSIG status_value)

/-- The completion messages for `pid` among the printed lines. -/
def done_messages (pid : Int) (out : List Output) : List Output :=
  out.filter fun o =>
    match o with
    | Output.background_done_exit q _ => q == pid
    | Output.background_done_signal q _ => q == pid
    | _ => false

/-! ## The children of the shell, as the kernel sees them -/

/-- A child the shell has not waited for yet: still running, or terminated
with a wait status that nobody has collected. -/
inductive Child where
  | running
  | terminated (wstatus : Int)
  deriving DecidableEq

/-- The children of the shell that have not been waited for, by process id. -/
abbrev Children := List (Int × Child)

/-- A running child terminates with wait status `w` (an event of the
environment, not of the shell). -/
def child_terminates (children : Children) (ev : Int × Int) : Children :=
  children.map fun c =>
    if c.1 = ev.1 ∧ c.2 = Child.running then (c.1, Child.terminated ev.2) else c

/-- What a `waitpid` call hands back: its return value, the value of
`*wstatus` afterwards, and the remaining children. -/
structure Waited where
  ret : Int
  status : Int
  children : Children
  deriving DecidableEq

/-- Call `waitpid(pid, &status, WNOHANG)` for `pid > 0`: a terminated child is
collected (its status is stored and the child is gone afterwards), a running
child gives 0, and a pid that is not a child to wait for gives -1. -/
def waitpid_WNOHANG (children : Children) (pid : Int) (status : Int) : Waited :=
  match children.lookup pid with
  | some (Child.terminated w) =>
      { ret := pid, status := w, children := children.filter fun c => c.1 != pid }
  | some Child.running => { ret := 0, status := status, children := children }
  | none => { ret := -1, status := status, children := children }

/-- Call `waitpid(pid, &status, 0)` for `pid > 0`: as above, except that on a
running child the call does not return (`none`). -/
def waitpid_0 (children : Children) (pid : Int) (status : Int) : Option Waited :=
  match children.lookup pid with
  | some (Child.terminated w) =>
      some { ret := pid, status := w, children := children.filter fun c => c.1 != pid }
  | some Child.running => none
  | none => some { ret := -1, status := status, children := children }

/-! ## Session state (lines 180-205) -/

/-- Lines 180-189, without the raw input buffer.  `parsed_command` is the
block of `MAX_ARGS` pointers (`none` is `NULL`),
`array_noncompleted_background_processes` the block of `MAX_BG_PROCESSES`
ints. -/
structure small_shell where
  status_value : Int
  parsed_command : List (Option (List Char))
  length : Nat
  array_noncompleted_background_processes : List Int
  index_noncompleted : Nat
  background : Bool
  exit_shell : Bool
  deriving DecidableEq

/-- The setting of one signal in one process. -/
inductive Disposition where
  | SIG_DFL
  | SIG_IGN
  | handle_SIGINT
  | handle_SIGTSTP
  deriving DecidableEq

/-- The shell process: the session object, the global `foreground_only`, its
signal settings, its unwaited children, what it has printed and the arguments
of its `chdir` calls. -/
structure Process where
  sh : small_shell
  foreground_only : Bool
  sigint : Disposition
  sigtstp : Disposition
  children : Children
  stdout : List Output
  chdir : List (Option (List Char))
  deriving DecidableEq

/-- How a piece of the shell's control flow ends. -/
inductive Run (α : Type) where
  /-- Control reaches the end of the piece. -/
  | ok (a : α)
  /-- The blocking `waitpid` on `pid` does not return under this schedule. -/
  | blocked (pid : Int)
  /-- A store outside the block allocated for the background table. -/
  | out_of_bounds (index : Nat)
  /-- The process called `exit(code)`. -/
  | exited (code : Int)
  /-- The process was killed by a signal. -/
  | killed
  /-- The `sprintf` of `expand` overran `id_string`. -/
  | overrun
  /-- A read through a pointer that `parse_command` has freed. -/
  | freed_read
  deriving DecidableEq

/-- Lines 197-205, in a process that starts with the given signal settings. -/
def start_state (sigint sigtstp : Disposition) : Process :=
  { sh :=
      { status_value := 0
        parsed_command := List.replicate MAX_ARGS none
        length := 0
        array_noncompleted_background_processes := List.replicate MAX_BG_PROCESSES 0
        index_noncompleted := 0
        background := false
        exit_shell := false }
    foreground_only := false
    sigint := sigint
    sigtstp := sigtstp
    children := []
    stdout := []
    chdir := [] }

/-! ## Signal settings (lines 25-93) -/

/-- Lines 69-75. -/
def register_SIGTSTP (p : Process) : Process :=
  { p with sigtstp := Disposition.handle_SIGTSTP }

/-- Lines 80-84. -/
def ignore_SIGINT (p : Process) : Process :=
  { p with sigint := Disposition.SIG_IGN }

/-- Lines 40-49: the body of the stop-signal handler. -/
def handle_SIGTSTP (p : Process) : Process :=
  let foreground_only := !p.foreground_only
  { p with
    foreground_only := foreground_only
    stdout := p.stdout ++
      [if foreground_only then Output.entering_foreground_only
       else Output.exiting_foreground_only] }

/-- Delivery of SIGINT to the shell process.  The shell never installs a
handler for itself (only its children call `register_SIGINT`), so what
matters is whether the signal is ignored: with the default action the process
is terminated. -/
def deliver_SIGINT (p : Process) : Run Process :=
  match p.sigint with
  | Disposition.SIG_DFL => Run.killed
  | _ => Run.ok p

/-! ## The background table (lines 242-248, 321-325, 337-343) -/

/-- The condition of lines 244 and 339 in state `p` at slot `i`:
`pid > 0 && waitpid(pid, &status_value, WNOHANG) == pid`. -/
def poll_hit (p : Process) (i : Nat) : Bool :=
  let pid := p.sh.array_noncompleted_background_processes.getD i 0
  decide (0 < pid) && (waitpid_WNOHANG p.children pid p.sh.status_value).ret == pid

/-- One iteration of the loop of lines 242-248 (and 337-343).  The `&&`
short-circuits, so `waitpid` runs only for a positive slot; it writes through
`&(sh->status_value)` whether or not its return value equals `pid`. -/
def poll_step (p : Process) (i : Nat) : Process :=
  let pid := p.sh.array_noncompleted_background_processes.getD i 0
  if 0 < pid then
    let r := waitpid_WNOHANG p.children pid p.sh.status_value
    if r.ret = pid then
      { p with
        children := r.children
        stdout := p.stdout ++ [print_background_status pid r.status]
        sh := { p.sh with
          status_value := r.status
          array_noncompleted_background_processes :=
            p.sh.array_noncompleted_background_processes.set i 0 } }
    else
      { p with children := r.children, sh := { p.sh with status_value := r.status } }
  else p

/-- The `for` loop `n` more times from index `i`. -/
def poll_loop : Nat → Nat → Process → Process
  | 0, _, p => p
  | n + 1, i, p => poll_loop n (i + 1) (poll_step p i)

/-- Lines 242-248 and 337-343: `for (i = 0; i < sh->index_noncompleted; i++)`. -/
def poll_and_reap (p : Process) : Process :=
  poll_loop p.sh.index_noncompleted 0 p

/-- Whether the pass started in `p` takes the branch of line 245 at slot `i`:
the condition evaluated in the state the loop has reached at index `i`. -/
def reported (p : Process) (i : Nat) : Bool :=
  decide (i < p.sh.index_noncompleted) && poll_hit (poll_loop i 0 p) i

/-- The line printed at slot `i` by the pass started in `p`, when it prints
one there: the pid the slot holds and the status `waitpid` has just stored. -/
def report_line (p : Process) (i : Nat) : Output :=
  print_background_status (p.sh.array_noncompleted_background_processes.getD i 0)
    (poll_loop (i + 1) 0 p).sh.status_value

/-- Line 323, `array[index_noncompleted++] = child_pid`.  The source stores
unconditionally; the model tells a store inside the allocated block from one
past its end. -/
def register_background (sh : small_shell) (child_pid : Int) : Run small_shell :=
  if sh.index_noncompleted < sh.array_noncompleted_background_processes.length then
    Run.ok { sh with
      array_noncompleted_background_processes :=
        sh.array_noncompleted_background_processes.set sh.index_noncompleted child_pid
      index_noncompleted := sh.index_noncompleted + 1 }
  else
    Run.out_of_bounds sh.index_noncompleted

/-! ## The launcher, parent side (lines 317-344) -/

/-- What the environment decides during one launch: the value `fork` returns
to the shell, the children that terminate (pid, wait status) before the
parent's `waitpid` of line 324 or 329 looks at them, and those that terminate
after it and before the loop of lines 337-343. -/
structure Schedule where
  fork : Int
  early : List (Int × Int)
  late : List (Int × Int)
  deriving DecidableEq

/-- Lines 317-334, `default:` branch of the `switch` up to the end of the
`if`/`else`: the child that `fork` returned joins the children, the
interrupt signal is ignored, and the shell either records the child as a
background job or waits for it. -/
def parent_branch (p : Process) (sched : Schedule) : Run Process :=
  let child_pid := sched.fork
  let p := { p with children := (child_pid, Child.running) :: p.children }
  let p := ignore_SIGINT p
  let p := { p with children := sched.early.foldl child_terminates p.children }
  if p.sh.background && !p.foreground_only then
    let p := { p with stdout := p.stdout ++ [Output.background_pid_is child_pid] }
    match register_background p.sh child_pid with
    | Run.ok sh =>
        let r := waitpid_WNOHANG p.children child_pid sh.status_value
        Run.ok { p with children := r.children, sh := { sh with status_value := r.status } }
    | Run.blocked pid => Run.blocked pid
    | Run.out_of_bounds index => Run.out_of_bounds index
    | Run.exited code => Run.exited code
    | Run.killed => Run.killed
    | Run.overrun => Run.overrun
    | Run.freed_read => Run.freed_read
  else
    match waitpid_0 p.children child_pid p.sh.status_value with
    | none => Run.blocked child_pid
    | some r =>
        let p := { p with children := r.children, sh := { p.sh with status_value := r.status } }
        if WIFSIGNALED p.sh.status_value then
          Run.ok { p with
            stdout := p.stdout ++ [Output.terminated_by_signal (WTERMSIG p.sh.status_value)] }
        else Run.ok p

/-- Lines 317-344: the branch above, then the loop of lines 337-343. -/
def parent_flow (p : Process) (sched : Schedule) : Run Process :=
  match parent_branch p sched with
  | Run.ok p =>
      let p := { p with children := sched.late.foldl child_terminates p.children }
      Run.ok (poll_and_reap p)
  | Run.blocked pid => Run.blocked pid
  | Run.out_of_bounds index => Run.out_of_bounds index
  | Run.exited code => Run.exited code
  | Run.killed => Run.killed
  | Run.overrun => Run.overrun
  | Run.freed_read => Run.freed_read

/-! ## The launcher, child side (lines 267-315) -/

/-- The files of the file system that `open` can open: `creat path` for
`O_WRONLY | O_CREAT | O_TRUNC`, `read path` for `O_RDONLY`. -/
structure Files where
  creat : List Char → Bool
  read : List Char → Bool

/-- The child between `fork` and `execvp`: its copy of the argument block and
of `length`, and the files attached to its standard streams. -/
structure Redirected where
  parsed_command : List (Option (List Char))
  length : Nat
  stdin : Option (List Char)
  stdout : Option (List Char)
  deriving DecidableEq

/-- The body of the loop of lines 269-299 at index `i`.  `open` on a `NULL`
path fails; `dup2` onto descriptor 0 or 1 is taken to succeed.  The tokens of
the line occupy the slots below `length`; a pointer that is not `NULL` in a
slot at or past `length` belonged to an earlier line and was freed by lines
161-163, so passing it to `open` is a read of freed memory. -/
def redirect_step (fs : Files) (c : Redirected) (i : Nat) : Run Redirected :=
  match c.parsed_command.getD i none with
  | none => Run.ok c
  | some tok =>
    if tok = ['>'] then
      match c.parsed_command.getD (i + 1) none with
      | none => Run.exited 1
      | some path =>
        if c.length ≤ i + 1 then Run.freed_read
        else if fs.creat path then
          Run.ok { c with
            stdout := some path
            parsed_command := (c.parsed_command.set i none).set (i + 1) none }
        else Run.exited 1
    else if tok = ['<'] then
      match c.parsed_command.getD (i + 1) none with
      | none => Run.exited 1
      | some path =>
        if c.length ≤ i + 1 then Run.freed_read
        else if fs.read path then
          Run.ok { c with
            stdin := some path
            parsed_command := (c.parsed_command.set i none).set (i + 1) none }
        else Run.exited 1
    else Run.ok c

/-- The `for` loop of lines 269-299, `n` more times from index `i`. -/
def redirect_loop (fs : Files) : Nat → Nat → Redirected → Run Redirected
  | 0, _, c => Run.ok c
  | n + 1, i, c =>
    match redirect_step fs c i with
    | Run.ok c => redirect_loop fs n (i + 1) c
    | r => r

/-- The argument vector as `execvp` reads it: the entries before the first
`NULL`. -/
def read_argv (parsed_command : List (Option (List Char))) : List (List Char) :=
  (parsed_command.takeWhile Option.isSome).filterMap id

/-- The call `execvp(parsed_command[0], parsed_command)` of line 312 together
with the process attributes the new program starts from. -/
structure Exec where
  file : Option (List Char)
  argv : List (List Char)
  stdin : Option (List Char)
  stdout : Option (List Char)
  sigint : Disposition
  sigtstp : Disposition
  foreground_child_process : Int
  deriving DecidableEq

/-- Lines 267-312, `case 0:` of the `switch`, in the copy `p` of the shell
that `fork` made; `getpid` is the child's own process id. -/
def child_flow (fs : Files) (p : Process) (getpid : Int) : Run Exec :=
  let c : Redirected :=
    { parsed_command := p.sh.parsed_command, length := p.sh.length, stdin := none,
      stdout := none }
  match redirect_loop fs (p.sh.length - 1) 1 c with
  | Run.ok c =>
      let sigtstp := Disposition.SIG_IGN
      let sigint :=
        if !p.sh.background || p.foreground_only then Disposition.handle_SIGINT else p.sigint
      let parsed_command := c.parsed_command.set p.sh.length none
      Run.ok
        { file := parsed_command.getD 0 none
          argv := read_argv parsed_command
          stdin := c.stdin
          stdout := c.stdout
          sigint := sigint
          sigtstp := sigtstp
          foreground_child_process := getpid }
  | Run.blocked pid => Run.blocked pid
  | Run.out_of_bounds index => Run.out_of_bounds index
  | Run.exited code => Run.exited code
  | Run.killed => Run.killed
  | Run.overrun => Run.overrun
  | Run.freed_read => Run.freed_read

/-- The argument vector as the specification words it: every `<` or `>` after
the program name is removed together with the token that follows it, every
other token stays in place. -/
def strip_redirections : List (List Char) → List (List Char)
  | [] => []
  | tok :: rest =>
    if tok = ['>'] ∨ tok = ['<'] then
      match rest with
      | [] => []
      | _ :: rest => strip_redirections rest
    else tok :: strip_redirections rest

/-! ## The shell loop (lines 207-349) -/

/-- What one pass of the loop takes from outside: the tokens `strtok_r` cuts
the line into, the shell's process id, the value of `HOME`, and the schedule
of its children. -/
structure Line where
  tokens : List (List Char)
  getpid : Int
  home : Option (List Char)
  sched : Schedule

/-- Lines 160-175: the tokens are stored from slot 0.  The slots after them
keep the pointer they held; where that pointer is not `NULL` it is one that
lines 161-163 have freed, now or on an earlier line (the string kept in the
model for such a slot is never read: see `redirect_step`). -/
def parse_command (sh : small_shell) (tokens : List (List Char)) : small_shell :=
  { sh with
    length := tokens.length
    parsed_command := tokens.map some ++ sh.parsed_command.drop tokens.length }

/-- Lines 213-217, `n` more times from index `i`. -/
def expand_loop (id : Int) :
    Nat → Nat → List (Option (List Char)) → Option (List (Option (List Char)))
  | 0, _, parsed_command => some parsed_command
  | n + 1, i, parsed_command =>
    match parsed_command.getD i none with
    | none => none
    | some tok =>
      match expand tok id with
      | none => none
      | some e => expand_loop id n (i + 1) (parsed_command.set i (some e))

/-- Lines 255-259. -/
def detect_background (sh : small_shell) : small_shell :=
  let sh := { sh with background := false }
  if sh.parsed_command.getD (sh.length - 1) none = some ['&'] then
    { sh with
      parsed_command := sh.parsed_command.set (sh.length - 1) none
      background := true }
  else sh

/-- Where the loop body stands when it reaches line 262: either the pass is
over (a built-in, a blank line or a comment), or a child is to be forked. -/
inductive Dispatched where
  | finished (p : Process)
  | launch (p : Process)
  deriving DecidableEq

/-- Lines 208-259. -/
def read_and_dispatch (p : Process) (line : Line) : Run Dispatched :=
  let p := register_SIGTSTP p
  let sh := parse_command p.sh line.tokens
  match expand_loop line.getpid (sh.length - 1) 1 sh.parsed_command with
  | none => Run.overrun
  | some parsed_command =>
    let sh := { sh with parsed_command := parsed_command }
    let p := { p with sh := sh }
    let first := sh.parsed_command.getD 0 none
    if 0 < sh.length ∧ first = some "exit".toList then
      Run.ok (Dispatched.finished { p with sh := { sh with exit_shell := true } })
    else if 0 < sh.length ∧ first = some "cd".toList then
      if sh.length = 1 then
        Run.ok (Dispatched.finished { p with chdir := p.chdir ++ [line.home] })
      else
        Run.ok (Dispatched.finished { p with chdir := p.chdir ++ [sh.parsed_command.getD 1 none] })
    else if 0 < sh.length ∧ first = some "status".toList then
      Run.ok (Dispatched.finished { p with stdout := p.stdout ++ [print_status sh.status_value] })
    else
      let p := poll_and_reap p
      if p.sh.length = 0 ∨ (first.bind List.head?) = some '#' then
        Run.ok (Dispatched.finished p)
      else
        Run.ok (Dispatched.launch { p with sh := detect_background p.sh })

/-- One pass of the `do ... while` body as the shell process lives it. -/
def iteration (p : Process) (line : Line) : Run Process :=
  match read_and_dispatch p line with
  | Run.ok (Dispatched.finished p) => Run.ok p
  | Run.ok (Dispatched.launch p) =>
      if line.sched.fork = -1 then Run.exited 1 else parent_flow p line.sched
  | Run.blocked pid => Run.blocked pid
  | Run.out_of_bounds index => Run.out_of_bounds index
  | Run.exited code => Run.exited code
  | Run.killed => Run.killed
  | Run.overrun => Run.overrun
  | Run.freed_read => Run.freed_read

/-- The child that the pass on `line` forks, if it forks one. -/
def forked_child (fs : Files) (p : Process) (line : Line) (child_pid : Int) : Option (Run Exec) :=
  match read_and_dispatch p line with
  | Run.ok (Dispatched.launch p) => some (child_flow fs p child_pid)
  | _ => none

/-- Successive passes of the loop over the given lines, until the lines run
out or a pass leaves `exit_shell` set (line 349). -/
def run_lines : Process → List Line → Run Process
  | p, [] => Run.ok p
  | p, line :: rest =>
    match iteration p line with
    | Run.ok p => if p.sh.exit_shell then Run.ok p else run_lines p rest
    | r => r

/-! ## Concrete sessions -/

/-- The session object as lines 197-205 leave it. -/
def fresh_session : small_shell :=
  (start_state Disposition.SIG_DFL Disposition.SIG_DFL).sh

/-- The session after `n` background launches with pids `1, ..., n`, as line
323 records them from the initial session. -/
def register_many : Nat → Run small_shell
  | 0 => Run.ok fresh_session
  | n + 1 =>
    match register_many n with
    | Run.ok sh => register_background sh (Int.ofNat (n + 1))
    | r => r

/-- A line typed to a shell whose process id is 1234 and whose `HOME` is
`/home/user`, with the schedule of its children. -/
def typed (words : List String) (fork : Int) (early late : List (Int × Int)) : Line :=
  { tokens := words.map String.toList
    getpid := 1234
    home := some "/home/user".toList
    sched := { fork := fork, early := early, late := late } }

/-- A file system in which every `open` succeeds. -/
def all_files : Files := { creat := fun _ => true, read := fun _ => true }

/-- The shell at its first prompt, started with the default signal settings. -/
def first_prompt : Process :=
  start_state Disposition.SIG_DFL Disposition.SIG_DFL

/-- The state in which the first line typed reaches line 262, when it is a
command to launch. -/
def launched (line : Line) : Process :=
  match read_and_dispatch first_prompt line with
  | Run.ok (Dispatched.launch p) => p
  | _ => first_prompt

/-- The state in which the last of the given lines reaches line 262, the lines
before it having run from the first prompt. -/
def launched_after (before : List Line) (line : Line) : Process :=
  match run_lines first_prompt before with
  | Run.ok p =>
    match read_and_dispatch p line with
    | Run.ok (Dispatched.launch p) => p
    | _ => first_prompt
  | _ => first_prompt

/-- The line `sort -r < in -u`. -/
def sort_line : Line := typed ["sort", "-r", "<", "in", "-u"] 8 [] []

/-- A process with the table `[7, 0, 9]` behind a counter of 3, child 7
terminated with wait status 256 and child 9 still running. -/
def three_slots : Process :=
  { first_prompt with
    children := [(7, Child.terminated 256), (9, Child.running)]
    sh := { first_prompt.sh with
      array_noncompleted_background_processes := [7, 0, 9]
      index_noncompleted := 3 } }

end Smallsh

namespace Smallsh

set_option maxRecDepth 100000

/-! ## Facts about `expand` -/

theorem count_markers_eq (path : List Char) (count : Nat) :
    count_markers path count = count + path.count '$' := by
  induction path generalizing count with
  | nil => simp [count_markers]
  | cons c path ih =>
    by_cases hc : c = '$'
    · subst hc
      simp [count_markers, ih]
      omega
    · have hne : ('$' == c) = false := by
        rw [beq_eq_false_iff_ne]
        exact fun h => hc h.symm
      simp [count_markers, ih, hc, List.count_cons, hne]

theorem strcat_loop_eq (n : Nat) (s expansion : List Char) :
    strcat_loop n s expansion = expansion ++ (List.replicate n s).flatten := by
  induction n generalizing expansion with
  | zero => simp [strcat_loop]
  | succ n ih => simp [strcat_loop, ih, List.replicate_succ]

theorem sprintf_d_length_le (n : Nat) (hn : n < 10 ^ 7) :
    (sprintf_d (Int.ofNat n)).length ≤ 7 := by
  have h := Nat.repr_length n 7 (by decide) hn
  simpa [sprintf_d, Nat.repr] using h

theorem expand_eq_some (path : List Char) (id : Int) (hid : (sprintf_d id).length ≤ 7) :
    expand path id = some (path.take (path.length - path.count '$')
      ++ (List.replicate (path.count '$' / 2) (sprintf_d id)).flatten
      ++ List.replicate (path.count '$' % 2) '$') := by
  have h8 : (sprintf_d id).length + 1 ≤ 8 := by omega
  simp only [expand, strncpy, count_markers_eq, Nat.zero_add, strcat_loop_eq, h8, if_true]
  congr 2
  induction (List.count '$' path % 2) with
  | zero => rfl
  | succ k ih => simp [List.replicate_succ, ih]

/-- The block requested on line 112 is large enough for the text that lines
113-119 put into it, terminating NUL included. -/
theorem expand_fits (path : List Char) (id : Int) (r : List Char)
    (h : expand path id = some r) : r.length + 1 ≤ expansion_capacity path id := by
  have hid : (sprintf_d id).length ≤ 7 := by
    by_contra hlt
    have h8 : ¬ ((sprintf_d id).length + 1 ≤ 8) := by omega
    simp [expand, h8] at h
  rw [expand_eq_some path id hid] at h
  have hr := (Option.some.inj h).symm
  have hle : path.count '$' ≤ path.length := List.count_le_length _ _
  have hmod : path.count '$' % 2 ≤ path.count '$' := Nat.mod_le _ _
  subst hr
  simp only [expansion_capacity, count_markers_eq, Nat.zero_add, List.length_append,
    List.length_take, List.length_flatten, List.map_replicate, List.sum_replicate,
    List.length_replicate, smul_eq_mul]
  have hmul : path.count '$' / 2 * (sprintf_d id).length
      = (sprintf_d id).length * (path.count '$' / 2) := Nat.mul_comm _ _
  omega

/-- C1 (the code departs from the claim): on the token `a$$b` with process id 5
`expand` returns `a$5`, whereas replacing the adjacent pair of `$` by the
decimal id and keeping every other character in place gives `a5b`. -/
theorem expand_inner_pair_diverges :
    expand "a$$b".toList 5 = some "a$5".toList ∧
      expand_pairs (sprintf_d 5) "a$$b".toList = "a5b".toList ∧
      expand "a$$b".toList 5 ≠ some (expand_pairs (sprintf_d 5) "a$$b".toList) := by
  decide

/-- C9: for a token holding an even number `2k` of `$` and a process id `n` of
at most 7 decimal digits, `expand` returns a string whose length is
`length s - 2k + k * (number of decimal digits of n)`. -/
theorem expand_length_even (s : List Char) (k n : Nat)
    (hk : s.count '$' = 2 * k) (hn : n < 10 ^ 7) :
    ∃ r, expand s (Int.ofNat n) = some r ∧
      r.length = s.length - 2 * k + k * (Nat.toDigits 10 n).length := by
  refine ⟨_, expand_eq_some s _ (sprintf_d_length_le n hn), ?_⟩
  have hle : s.count '$' ≤ s.length := List.count_le_length _ _
  have hdiv : s.count '$' / 2 = k := by omega
  have hmod : s.count '$' % 2 = 0 := by omega
  simp only [hdiv, hmod, List.length_append, List.length_take, List.length_flatten,
    List.map_replicate, List.sum_replicate, List.length_replicate, smul_eq_mul, sprintf_d]
  omega

/-- C9 at the token `a$$b$$` and process id 1234. -/
theorem expand_length_even_witness :
    ("a$$b$$".toList.count '$' = 2 * 2 ∧ 1234 < 10 ^ 7) ∧
      ∃ r, expand "a$$b$$".toList (Int.ofNat 1234) = some r ∧
        r.length = "a$$b$$".toList.length - 2 * 2 + 2 * (Nat.toDigits 10 1234).length :=
  ⟨⟨by decide, by decide⟩, expand_length_even "a$$b$$".toList 2 1234 (by decide) (by decide)⟩

/-- C10: for a string `p` without `$`, any `m` and a process id `n` of at most
7 decimal digits, `expand` applied to `p` followed by `m` markers returns `p`,
then `m / 2` copies of the decimal id, then `m % 2` markers; so a token without
`$` comes back as an equal copy and the one-character token `$` stays `$`. -/
theorem expand_trailing_markers (p : List Char) (m n : Nat)
    (hp : '$' ∉ p) (hn : n < 10 ^ 7) :
    expand (p ++ List.replicate m '$') (Int.ofNat n)
        = some (p ++ (List.replicate (m / 2) (Nat.toDigits 10 n)).flatten
            ++ List.replicate (m % 2) '$') ∧
      expand p (Int.ofNat n) = some p ∧
      expand ['$'] (Int.ofNat n) = some ['$'] := by
  have hid := sprintf_d_length_le n hn
  have hcp : p.count '$' = 0 := List.count_eq_zero.mpr hp
  refine ⟨?_, ?_, ?_⟩
  · rw [expand_eq_some _ _ hid]
    have hc : (p ++ List.replicate m '$').count '$' = m := by
      simp [List.count_append, hcp]
    simp [hc, sprintf_d]
  · rw [expand_eq_some _ _ hid]
    simp [hcp]
  · rw [expand_eq_some _ _ hid]
    simp

/-- C10 at the token `ab$$$` and process id 1234. -/
theorem expand_trailing_markers_witness :
    ('$' ∉ "ab".toList ∧ 1234 < 10 ^ 7) ∧
      (expand ("ab".toList ++ List.replicate 3 '$') (Int.ofNat 1234)
          = some ("ab".toList ++ (List.replicate (3 / 2) (Nat.toDigits 10 1234)).flatten
              ++ List.replicate (3 % 2) '$') ∧
        expand "ab".toList (Int.ofNat 1234) = some "ab".toList ∧
        expand ['$'] (Int.ofNat 1234) = some ['$']) :=
  ⟨⟨by decide, by decide⟩, expand_trailing_markers "ab".toList 3 1234 (by decide) (by decide)⟩

/-! ## The poll-and-reap pass -/

theorem poll_loop_succ (n i : Nat) (p : Process) :
    poll_loop (n + 1) i p = poll_step (poll_loop n i p) (i + n) := by
  induction n generalizing i p with
  | zero => simp [poll_loop]
  | succ n ih =>
    have h := ih (i + 1) (poll_step p i)
    have harith : i + 1 + n = i + (n + 1) := by omega
    rw [harith] at h
    conv_lhs => rw [poll_loop]
    rw [h]
    rfl

theorem poll_step_index (p : Process) (i : Nat) :
    (poll_step p i).sh.index_noncompleted = p.sh.index_noncompleted := by
  unfold poll_step
  dsimp only
  split_ifs <;> rfl

theorem poll_step_slot (p : Process) (i k : Nat) :
    (poll_step p i).sh.array_noncompleted_background_processes.getD k 0
      = if k = i ∧ poll_hit p i = true then 0
        else p.sh.array_noncompleted_background_processes.getD k 0 := by
  unfold poll_step poll_hit
  dsimp only
  by_cases hpos : 0 < p.sh.array_noncompleted_background_processes.getD i 0
  · by_cases hret : (waitpid_WNOHANG p.children
        (p.sh.array_noncompleted_background_processes.getD i 0) p.sh.status_value).ret
          = p.sh.array_noncompleted_background_processes.getD i 0
    · rw [if_pos hpos, if_pos hret]
      by_cases hk : k = i
      · subst hk
        have hcond : (k = k ∧ (decide (0 < p.sh.array_noncompleted_background_processes.getD k 0)
            && (waitpid_WNOHANG p.children
              (p.sh.array_noncompleted_background_processes.getD k 0) p.sh.status_value).ret
                == p.sh.array_noncompleted_background_processes.getD k 0) = true) := by
          refine ⟨rfl, ?_⟩
          rw [Bool.and_eq_true]
          exact ⟨decide_eq_true hpos, beq_iff_eq.mpr hret⟩
        rw [if_pos hcond]
        by_cases hlen : k < p.sh.array_noncompleted_background_processes.length
        · simp [List.getD_eq_getElem?_getD, List.getElem?_set_self hlen]
        · have hge : p.sh.array_noncompleted_background_processes.length ≤ k := by omega
          exfalso
          simp [List.getD_eq_getElem?_getD, List.getElem?_eq_none hge] at hpos
      · have hne : i ≠ k := fun h => hk h.symm
        have hcond : ¬ (k = i ∧ (decide (0 < p.sh.array_noncompleted_background_processes.getD i 0)
            && (waitpid_WNOHANG p.children
              (p.sh.array_noncompleted_background_processes.getD i 0) p.sh.status_value).ret
                == p.sh.array_noncompleted_background_processes.getD i 0) = true) :=
          fun h => hk h.1
        rw [if_neg hcond]
        simp [List.getD_eq_getElem?_getD, List.getElem?_set_ne hne]
    · rw [if_pos hpos, if_neg hret]
      have hcond : ¬ (k = i ∧ (decide (0 < p.sh.array_noncompleted_background_processes.getD i 0)
          && (waitpid_WNOHANG p.children
            (p.sh.array_noncompleted_background_processes.getD i 0) p.sh.status_value).ret
              == p.sh.array_noncompleted_background_processes.getD i 0) = true) := by
        intro h
        rw [Bool.and_eq_true] at h
        exact hret (beq_iff_eq.mp h.2.2)
      rw [if_neg hcond]
  · rw [if_neg hpos]
    have hcond : ¬ (k = i ∧ (decide (0 < p.sh.array_noncompleted_background_processes.getD i 0)
        && (waitpid_WNOHANG p.children
          (p.sh.array_noncompleted_background_processes.getD i 0) p.sh.status_value).ret
            == p.sh.array_noncompleted_background_processes.getD i 0) = true) := by
      intro h
      rw [Bool.and_eq_true] at h
      exact hpos (of_decide_eq_true h.2.1)
    rw [if_neg hcond]

theorem poll_step_of_not_hit (p : Process) (i : Nat)
    (h : p.sh.array_noncompleted_background_processes.getD i 0 ≤ 0) : poll_step p i = p := by
  unfold poll_step
  dsimp only
  have hpos : ¬ 0 < p.sh.array_noncompleted_background_processes.getD i 0 := by omega
  rw [if_neg hpos]

theorem poll_step_stdout (p : Process) (i : Nat) :
    (poll_step p i).stdout
      = p.stdout ++ (if poll_hit p i = true then
          [print_background_status (p.sh.array_noncompleted_background_processes.getD i 0)
            (poll_step p i).sh.status_value]
        else []) := by
  unfold poll_step poll_hit
  dsimp only
  by_cases hpos : 0 < p.sh.array_noncompleted_background_processes.getD i 0
  · by_cases hret : (waitpid_WNOHANG p.children
        (p.sh.array_noncompleted_background_processes.getD i 0) p.sh.status_value).ret
          = p.sh.array_noncompleted_background_processes.getD i 0
    · rw [if_pos hpos, if_pos hret]
      have hcond : (decide (0 < p.sh.array_noncompleted_background_processes.getD i 0)
          && (waitpid_WNOHANG p.children
            (p.sh.array_noncompleted_background_processes.getD i 0) p.sh.status_value).ret
              == p.sh.array_noncompleted_background_processes.getD i 0) = true := by
        rw [Bool.and_eq_true]
        exact ⟨decide_eq_true hpos, beq_iff_eq.mpr hret⟩
      rw [if_pos hcond]
    · rw [if_pos hpos, if_neg hret]
      have hcond : ¬ ((decide (0 < p.sh.array_noncompleted_background_processes.getD i 0)
          && (waitpid_WNOHANG p.children
            (p.sh.array_noncompleted_background_processes.getD i 0) p.sh.status_value).ret
              == p.sh.array_noncompleted_background_processes.getD i 0) = true) := by
        intro h
        rw [Bool.and_eq_true] at h
        exact hret (beq_iff_eq.mp h.2)
      rw [if_neg hcond, List.append_nil]
  · rw [if_neg hpos]
    have hcond : ¬ ((decide (0 < p.sh.array_noncompleted_background_processes.getD i 0)
        && (waitpid_WNOHANG p.children
          (p.sh.array_noncompleted_background_processes.getD i 0) p.sh.status_value).ret
            == p.sh.array_noncompleted_background_processes.getD i 0) = true) := by
      intro h
      rw [Bool.and_eq_true] at h
      exact hpos (of_decide_eq_true h.1)
    rw [if_neg hcond, List.append_nil]

theorem poll_loop_index (n : Nat) (p : Process) :
    (poll_loop n 0 p).sh.index_noncompleted = p.sh.index_noncompleted := by
  induction n with
  | zero => rfl
  | succ n ih => rw [poll_loop_succ, poll_step_index, ih]

theorem poll_loop_slot (n : Nat) (p : Process) (k : Nat) :
    (poll_loop n 0 p).sh.array_noncompleted_background_processes.getD k 0
      = if k < n ∧ poll_hit (poll_loop k 0 p) k = true then 0
        else p.sh.array_noncompleted_background_processes.getD k 0 := by
  induction n with
  | zero => simp [poll_loop]
  | succ n ih =>
    rw [poll_loop_succ, poll_step_slot, ih, Nat.zero_add]
    by_cases hk : k = n
    · subst hk
      by_cases hh : poll_hit (poll_loop k 0 p) k = true
      · simp [hh]
      · simp [hh]
    · by_cases hlt : k < n
      · have hlt' : k < n + 1 := by omega
        simp [hk, hlt, hlt']
      · have hlt' : ¬ k < n + 1 := by omega
        simp [hk, hlt, hlt']

theorem poll_loop_of_empty (n : Nat) (p : Process)
    (h : ∀ i, i < n → p.sh.array_noncompleted_background_processes.getD i 0 ≤ 0) :
    poll_loop n 0 p = p := by
  induction n with
  | zero => rfl
  | succ n ih =>
    rw [poll_loop_succ, ih (fun i hi => h i (by omega)), Nat.zero_add]
    exact poll_step_of_not_hit p n (h n (by omega))

theorem poll_loop_stdout (n : Nat) (p : Process) :
    (poll_loop n 0 p).stdout
      = p.stdout ++ ((List.range n).filter fun i => poll_hit (poll_loop i 0 p) i).map
          (report_line p) := by
  induction n with
  | zero => simp [poll_loop]
  | succ n ih =>
    have hslot : (poll_loop n 0 p).sh.array_noncompleted_background_processes.getD n 0
        = p.sh.array_noncompleted_background_processes.getD n 0 := by
      rw [poll_loop_slot]
      have hnn : ¬ (n < n ∧ poll_hit (poll_loop n 0 p) n = true) := fun h => Nat.lt_irrefl n h.1
      rw [if_neg hnn]
    have hsucc := poll_loop_succ n 0 p
    rw [Nat.zero_add] at hsucc
    rw [hsucc, poll_step_stdout, ← hsucc, ih, hslot, List.range_succ, List.filter_append,
      List.map_append, List.append_assoc]
    congr 1
    by_cases hh : poll_hit (poll_loop n 0 p) n = true
    · simp [hh, report_line]
    · simp [hh]

theorem poll_hit_pos (p : Process) (i : Nat) (h : poll_hit p i = true) :
    0 < p.sh.array_noncompleted_background_processes.getD i 0 := by
  unfold poll_hit at h
  simp only [Bool.and_eq_true, decide_eq_true_eq] at h
  exact h.1

theorem reported_pos (p : Process) (i : Nat) (h : reported p i = true) :
    i < p.sh.index_noncompleted ∧ 0 < p.sh.array_noncompleted_background_processes.getD i 0 := by
  unfold reported at h
  simp only [Bool.and_eq_true, decide_eq_true_eq] at h
  refine ⟨h.1, ?_⟩
  have hpos := poll_hit_pos _ _ h.2
  rw [poll_loop_slot] at hpos
  simpa using hpos

theorem poll_and_reap_slot (p : Process) (k : Nat) :
    (poll_and_reap p).sh.array_noncompleted_background_processes.getD k 0
      = if reported p k = true then 0
        else p.sh.array_noncompleted_background_processes.getD k 0 := by
  unfold poll_and_reap reported
  rw [poll_loop_slot]
  simp

theorem poll_and_reap_stdout (p : Process) :
    (poll_and_reap p).stdout
      = p.stdout ++ ((List.range p.sh.index_noncompleted).filter (reported p)).map
          (report_line p) := by
  unfold poll_and_reap
  rw [poll_loop_stdout]
  congr 2
  apply List.filter_congr
  intro i hi
  have hlt : i < p.sh.index_noncompleted := List.mem_range.mp hi
  simp [reported, hlt]

/-- C8: a poll-and-reap pass reports only slots below the counter that hold a
pid greater than 0 and prints one completion line per reported slot, in slot
order, for the pid held there; afterwards exactly the reported slots hold 0
and every other slot holds what it held; a slot reported by one pass is not
reported by a later pass started in any state where that slot still holds
what the first pass left there; and a pass over a table without an occupied
slot reports nothing and leaves the whole process state as it was. -/
theorem poll_and_reap_reports (p : Process) :
    (∀ i, reported p i = true →
        i < p.sh.index_noncompleted ∧
          0 < p.sh.array_noncompleted_background_processes.getD i 0) ∧
      (poll_and_reap p).stdout
        = p.stdout ++ ((List.range p.sh.index_noncompleted).filter (reported p)).map
            (report_line p) ∧
      (∀ i, (poll_and_reap p).sh.array_noncompleted_background_processes.getD i 0
          = if reported p i = true then 0
            else p.sh.array_noncompleted_background_processes.getD i 0) ∧
      (∀ i, reported p i = true → ∀ q : Process,
          q.sh.array_noncompleted_background_processes.getD i 0
            = (poll_and_reap p).sh.array_noncompleted_background_processes.getD i 0 →
          reported q i = false) ∧
      ((∀ i, i < p.sh.index_noncompleted →
          p.sh.array_noncompleted_background_processes.getD i 0 ≤ 0) →
        poll_and_reap p = p ∧ ∀ i, reported p i = false) := by
  refine ⟨reported_pos p, poll_and_reap_stdout p, poll_and_reap_slot p, ?_, ?_⟩
  · intro i hi q hq
    rw [poll_and_reap_slot, if_pos hi] at hq
    by_contra hne
    have hrep : reported q i = true := by simpa using hne
    have := (reported_pos q i hrep).2
    omega
  · intro hempty
    refine ⟨poll_loop_of_empty _ p hempty, ?_⟩
    intro i
    by_contra hne
    have hrep : reported p i = true := by simpa using hne
    have := reported_pos p i hrep
    have := hempty i this.1
    omega

/-! ## Registration in the background table -/

/-- C6 (as amended): while the launch counter is below the capacity of 100,
registering a background pid stores it in the slot the counter names, an
index below 100, leaves every other slot as it was and advances the counter
by one. -/
theorem register_background_below_capacity (sh : small_shell) (child_pid : Int)
    (hlen : sh.array_noncompleted_background_processes.length = MAX_BG_PROCESSES)
    (hidx : sh.index_noncompleted < MAX_BG_PROCESSES) :
    ∃ sh', register_background sh child_pid = Run.ok sh' ∧
      sh.index_noncompleted < MAX_BG_PROCESSES ∧
      sh'.array_noncompleted_background_processes.getD sh.index_noncompleted 0 = child_pid ∧
      (∀ k, k ≠ sh.index_noncompleted →
        sh'.array_noncompleted_background_processes.getD k 0
          = sh.array_noncompleted_background_processes.getD k 0) ∧
      sh'.array_noncompleted_background_processes.length = MAX_BG_PROCESSES ∧
      sh'.index_noncompleted = sh.index_noncompleted + 1 := by
  have hin : sh.index_noncompleted < sh.array_noncompleted_background_processes.length := by
    rw [hlen]; exact hidx
  refine ⟨_, by rw [register_background, if_pos hin], hidx, ?_, ?_, ?_, rfl⟩
  · simp [List.getD_eq_getElem?_getD, List.getElem?_set_self hin]
  · intro k hk
    have hne : sh.index_noncompleted ≠ k := fun h => hk h.symm
    simp [List.getD_eq_getElem?_getD, List.getElem?_set_ne hne]
  · simp [hlen]

/-- C6 (as amended) at the initial session and pid 7. -/
theorem register_background_below_capacity_witness :
    (fresh_session.array_noncompleted_background_processes.length = MAX_BG_PROCESSES ∧
        fresh_session.index_noncompleted < MAX_BG_PROCESSES) ∧
      ∃ sh', register_background fresh_session 7 = Run.ok sh' ∧
        fresh_session.index_noncompleted < MAX_BG_PROCESSES ∧
        sh'.array_noncompleted_background_processes.getD fresh_session.index_noncompleted 0
          = 7 ∧
        (∀ k, k ≠ fresh_session.index_noncompleted →
          sh'.array_noncompleted_background_processes.getD k 0
            = fresh_session.array_noncompleted_background_processes.getD k 0) ∧
        sh'.array_noncompleted_background_processes.length = MAX_BG_PROCESSES ∧
        sh'.index_noncompleted = fresh_session.index_noncompleted + 1 :=
  ⟨⟨by decide, by decide⟩,
    register_background_below_capacity fresh_session 7 (by decide) (by decide)⟩

/-- C6 (the claim as stated fails): after 100 background launches the counter
stands at 100, and the next registration stores at index 100, one past the
end of the block of 100 slots; nothing reports that the table is full. -/
theorem register_background_past_capacity :
    ∃ sh, register_many 100 = Run.ok sh ∧
      sh.index_noncompleted = 100 ∧
      sh.array_noncompleted_background_processes.length = MAX_BG_PROCESSES ∧
      register_background sh 101 = Run.out_of_bounds 100 ∧
      MAX_BG_PROCESSES ≤ 100 := by
  refine ⟨_, rfl, ?_, ?_, ?_, ?_⟩ <;> decide

/-! ## Foreground or background -/

/-- C2 (the code departs from the claim): `sleep 1 &` starts background child
7; then the foreground command `ls` runs as child 8, which terminates with
wait status 0 while child 7 terminates with wait status 256 (exit code 1).
The blocking wait of line 329 stores 0, and the pass of lines 337-343 then
reaps child 7 through the same `status_value`, so at the next prompt the field
holds 256 and the built-in `status` prints `exit value 1`, not the foreground
child's `exit value 0`. -/
theorem background_reap_overwrites_status :
    ∃ p, run_lines first_prompt
          [typed ["sleep", "1", "&"] 7 [] [], typed ["ls"] 8 [(8, 0), (7, 256)] [],
            typed ["status"] 0 [] []]
        = Run.ok p ∧
      p.sh.status_value = 256 ∧
      p.stdout = [Output.background_pid_is 7, Output.background_done_exit 7 1,
        Output.exit_value 1] ∧
      print_status 0 = Output.exit_value 0 := by
  refine ⟨_, rfl, ?_, ?_, ?_⟩ <;> decide

/-! ## Completion messages -/

/-- C3 (the code departs from the claim): `true &` starts background child 5,
which has already terminated with wait status 0 when the parent reaches line
324.  That `waitpid` collects the child and its result is dropped, so the pass
of lines 337-343 and the pass of lines 242-248 on the next (blank) line get -1
for slot 0: the job has terminated, two passes have run, and no completion
line for pid 5 has been printed; further passes change nothing. -/
theorem discarded_wait_loses_completion :
    ∃ p, run_lines first_prompt [typed ["true", "&"] 5 [(5, 0)] [], typed [] 0 [] []]
        = Run.ok p ∧
      p.stdout = [Output.background_pid_is 5] ∧
      done_messages 5 p.stdout = [] ∧
      p.children = [] ∧
      p.sh.array_noncompleted_background_processes.getD 0 0 = 5 ∧
      poll_and_reap p = p := by
  refine ⟨_, rfl, ?_, ?_, ?_, ?_, ?_⟩ <;> decide

/-! ## The interrupt signal at the prompt -/

theorem poll_step_sigint (p : Process) (i : Nat) : (poll_step p i).sigint = p.sigint := by
  unfold poll_step
  dsimp only
  split_ifs <;> rfl

theorem poll_loop_sigint (n i : Nat) (p : Process) : (poll_loop n i p).sigint = p.sigint := by
  induction n generalizing i p with
  | zero => rfl
  | succ n ih => rw [poll_loop, ih, poll_step_sigint]

theorem finished_keeps_sigint (p : Process) (line : Line) (q : Process)
    (h : read_and_dispatch p line = Run.ok (Dispatched.finished q)) : q.sigint = p.sigint := by
  unfold read_and_dispatch at h
  dsimp only at h
  split at h
  · exact Run.noConfusion h
  · split_ifs at h
    all_goals first
      | (have hq := Dispatched.finished.inj (Run.ok.inj h)
         subst hq
         first
           | rfl
           | exact poll_loop_sigint _ _ _)
      | exact Dispatched.noConfusion (Run.ok.inj h)

/-- C5 (the code departs from the claim): the loop head installs only the
stop-signal handler, and `ignore_SIGINT` runs only in the parent branch after
a `fork`.  A shell started with the default interrupt setting therefore still
has it at the first prompt, and after any pass that ends in a built-in, a
blank line or a comment, where an interrupt terminates the shell; only a
launch switches the setting to ignore. -/
theorem interrupt_not_ignored_before_first_launch :
    first_prompt.sigint = Disposition.SIG_DFL ∧
      deliver_SIGINT first_prompt = Run.killed ∧
      (∀ (p : Process) (line : Line) (q : Process),
        read_and_dispatch p line = Run.ok (Dispatched.finished q) → q.sigint = p.sigint) ∧
      (∃ p, run_lines first_prompt
            [typed [] 0 [] [], typed ["status"] 0 [] [], typed ["cd"] 0 [] [],
              typed ["#", "note"] 0 [] []]
          = Run.ok p ∧
        p.sigint = Disposition.SIG_DFL ∧ deliver_SIGINT p = Run.killed) ∧
      (∃ p, run_lines first_prompt [typed ["ls"] 8 [(8, 0)] []] = Run.ok p ∧
        p.sigint = Disposition.SIG_IGN ∧ deliver_SIGINT p = Run.ok p) := by
  refine ⟨rfl, rfl, finished_keeps_sigint, ⟨_, rfl, ?_, ?_⟩, ⟨_, rfl, ?_, ?_⟩⟩ <;> decide

/-! ## Redirection and the argument vector -/

theorem getD_set_ne {α : Type} (a : List α) (j k : Nat) (v d : α) (h : j ≠ k) :
    (a.set j v).getD k d = a.getD k d := by
  simp [List.getD_eq_getElem?_getD, List.getElem?_set_ne h]

theorem getD_set_none_self {α : Type} (a : List (Option α)) (j : Nat) :
    (a.set j none).getD j none = none := by
  by_cases hj : j < a.length
  · simp [List.getD_eq_getElem?_getD, List.getElem?_set_self hj]
  · have hge : (a.set j none).length ≤ j := by simp; omega
    simp [List.getD_eq_getElem?_getD, List.getElem?_eq_none hge]

theorem getD_append_length {α : Type} (l₁ l₂ : List α) (x d : α) :
    (l₁ ++ x :: l₂).getD l₁.length d = x := by
  induction l₁ with
  | nil => rfl
  | cons y ys ih => exact ih

theorem takeWhile_set_of_none {α : Type} (a : List (Option α)) (j k : Nat) (v : Option α)
    (hj : a.getD j none = none) (hjk : j < k) :
    (a.set k v).takeWhile Option.isSome = a.takeWhile Option.isSome := by
  induction a generalizing j k with
  | nil => rfl
  | cons x xs ih =>
    cases k with
    | zero => omega
    | succ k =>
      rw [List.set_cons_succ]
      cases j with
      | zero =>
        have hx : x = none := by simpa using hj
        subst hx
        rfl
      | succ j =>
        have hj' : xs.getD j none = none := by simpa using hj
        rw [List.takeWhile_cons, List.takeWhile_cons, ih j k hj' (by omega)]

theorem takeWhile_map_some_append_none {α : Type} (pre : List α) (xs : List (Option α)) :
    (pre.map some ++ none :: xs).takeWhile Option.isSome = pre.map some := by
  induction pre with
  | nil => rfl
  | cons t pre ih => simp [List.takeWhile_cons, ih]

theorem filterMap_id_map_some {α : Type} (pre : List α) :
    (pre.map some).filterMap id = pre := by
  induction pre with
  | nil => rfl
  | cons t pre ih => simp [ih]

theorem redirect_step_none (fs : Files) (c : Redirected) (i : Nat)
    (h : c.parsed_command.getD i none = none) : redirect_step fs c i = Run.ok c := by
  unfold redirect_step
  rw [h]

theorem redirect_step_plain (fs : Files) (c : Redirected) (i : Nat) (tok : List Char)
    (h : c.parsed_command.getD i none = some tok) (hout : tok ≠ ['>']) (hin : tok ≠ ['<']) :
    redirect_step fs c i = Run.ok c := by
  unfold redirect_step
  rw [h]
  dsimp only
  rw [if_neg hout, if_neg hin]

theorem redirect_step_operator (fs : Files) (c c₁ : Redirected) (i : Nat) (tok : List Char)
    (h : c.parsed_command.getD i none = some tok) (hop : tok = ['>'] ∨ tok = ['<'])
    (hstep : redirect_step fs c i = Run.ok c₁) :
    c₁.parsed_command = (c.parsed_command.set i none).set (i + 1) none ∧
      c₁.length = c.length := by
  unfold redirect_step at hstep
  rw [h] at hstep
  dsimp only at hstep
  by_cases hout : tok = ['>']
  · rw [if_pos hout] at hstep
    cases hnext : c.parsed_command.getD (i + 1) none with
    | none => rw [hnext] at hstep; exact Run.noConfusion hstep
    | some path =>
      rw [hnext] at hstep
      dsimp only at hstep
      by_cases hfreed : c.length ≤ i + 1
      · rw [if_pos hfreed] at hstep
        exact Run.noConfusion hstep
      · rw [if_neg hfreed] at hstep
        by_cases hopen : fs.creat path = true
        · rw [if_pos hopen] at hstep
          rw [← Run.ok.inj hstep]
          exact ⟨rfl, rfl⟩
        · rw [if_neg hopen] at hstep
          exact Run.noConfusion hstep
  · have hin : tok = ['<'] := hop.resolve_left hout
    rw [if_neg hout, if_pos hin] at hstep
    cases hnext : c.parsed_command.getD (i + 1) none with
    | none => rw [hnext] at hstep; exact Run.noConfusion hstep
    | some path =>
      rw [hnext] at hstep
      dsimp only at hstep
      by_cases hfreed : c.length ≤ i + 1
      · rw [if_pos hfreed] at hstep
        exact Run.noConfusion hstep
      · rw [if_neg hfreed] at hstep
        by_cases hopen : fs.read path = true
        · rw [if_pos hopen] at hstep
          rw [← Run.ok.inj hstep]
          exact ⟨rfl, rfl⟩
        · rw [if_neg hopen] at hstep
          exact Run.noConfusion hstep

theorem redirect_step_cases (fs : Files) (c c₁ : Redirected) (i : Nat)
    (hstep : redirect_step fs c i = Run.ok c₁) :
    c₁.parsed_command = c.parsed_command ∨
      ((∃ tok, c.parsed_command.getD i none = some tok) ∧
        c₁.parsed_command = (c.parsed_command.set i none).set (i + 1) none) := by
  cases hcur : c.parsed_command.getD i none with
  | none =>
    rw [redirect_step_none fs c i hcur] at hstep
    left
    rw [← Run.ok.inj hstep]
  | some tok =>
    by_cases hop : tok = ['>'] ∨ tok = ['<']
    · right
      exact ⟨⟨tok, rfl⟩, (redirect_step_operator fs c c₁ i tok hcur hop hstep).1⟩
    · have hout : tok ≠ ['>'] := fun h => hop (Or.inl h)
      have hin : tok ≠ ['<'] := fun h => hop (Or.inr h)
      rw [redirect_step_plain fs c i tok hcur hout hin] at hstep
      left
      rw [← Run.ok.inj hstep]

theorem redirect_loop_succ_ok (fs : Files) (n i : Nat) (c c' : Redirected)
    (h : redirect_loop fs (n + 1) i c = Run.ok c') :
    ∃ c₁, redirect_step fs c i = Run.ok c₁ ∧ redirect_loop fs n (i + 1) c₁ = Run.ok c' := by
  rw [redirect_loop] at h
  cases hstep : redirect_step fs c i with
  | ok c₁ =>
    rw [hstep] at h
    exact ⟨c₁, rfl, h⟩
  | blocked pid => rw [hstep] at h; exact Run.noConfusion h
  | out_of_bounds index => rw [hstep] at h; exact Run.noConfusion h
  | exited code => rw [hstep] at h; exact Run.noConfusion h
  | killed => rw [hstep] at h; exact Run.noConfusion h
  | overrun => rw [hstep] at h; exact Run.noConfusion h
  | freed_read => rw [hstep] at h; exact Run.noConfusion h

/-- Once a slot at or before the loop index holds `NULL`, the rest of the loop
leaves the part of the block that `execvp` reads as it is. -/
theorem redirect_loop_frozen (fs : Files) (n : Nat) :
    ∀ (i j : Nat) (c c' : Redirected),
      c.parsed_command.getD j none = none → j ≤ i →
      redirect_loop fs n i c = Run.ok c' →
      c'.parsed_command.takeWhile Option.isSome = c.parsed_command.takeWhile Option.isSome ∧
        c'.parsed_command.getD j none = none := by
  induction n with
  | zero =>
    intro i j c c' hj _ h
    rw [redirect_loop] at h
    rw [← Run.ok.inj h]
    exact ⟨rfl, hj⟩
  | succ n ih =>
    intro i j c c' hj hji h
    obtain ⟨c₁, hstep, hrest⟩ := redirect_loop_succ_ok fs n i c c' h
    rcases redirect_step_cases fs c c₁ i hstep with hsame | ⟨⟨tok, htok⟩, hset⟩
    · have hj₁ : c₁.parsed_command.getD j none = none := by rw [hsame]; exact hj
      have := ih (i + 1) j c₁ c' hj₁ (by omega) hrest
      rw [hsame] at this
      exact this
    · have hne : j ≠ i := by
        intro hji'
        rw [hji', htok] at hj
        exact Option.noConfusion hj
      have hlt : j < i := by omega
      have hj₀ : (c.parsed_command.set i none).getD j none = none := by
        rw [getD_set_ne _ _ _ _ _ (by omega)]; exact hj
      have hj₁ : c₁.parsed_command.getD j none = none := by
        rw [hset, getD_set_ne _ _ _ _ _ (by omega)]; exact hj₀
      have htw : c₁.parsed_command.takeWhile Option.isSome
          = c.parsed_command.takeWhile Option.isSome := by
        rw [hset, takeWhile_set_of_none _ j (i + 1) none hj₀ (by omega),
          takeWhile_set_of_none _ j i none hj hlt]
      have := ih (i + 1) j c₁ c' hj₁ (by omega) hrest
      rw [htw] at this
      exact this

theorem read_argv_of_takeWhile (a : List (Option (List Char))) (pre : List (List Char))
    (h : a.takeWhile Option.isSome = pre.map some) : read_argv a = pre := by
  unfold read_argv
  rw [h, filterMap_id_map_some]

theorem set_length_append {α : Type} (l₁ l₂ : List α) (x v : α) :
    (l₁ ++ x :: l₂).set l₁.length v = l₁ ++ v :: l₂ := by
  induction l₁ with
  | nil => rfl
  | cons y ys ih => simp [ih]

/-- The argument vector after the loop of lines 269-299 and the store of line
311: the tokens before the loop index, then the tokens up to the first `<` or
`>`. -/
theorem redirect_loop_argv (fs : Files) (args : List (List Char)) :
    ∀ (pre : List (List Char)) (rest : List (Option (List Char))) (n : Nat)
      (c c' : Redirected),
      c.parsed_command = pre.map some ++ (args.map some ++ rest) →
      args.length ≤ n →
      (∀ k, k < n - args.length → rest.getD k none = none) →
      n - args.length < rest.length →
      redirect_loop fs n pre.length c = Run.ok c' →
      read_argv (c'.parsed_command.set (pre.length + n) none)
        = pre ++ args.takeWhile fun t => decide (t ≠ ['>'] ∧ t ≠ ['<']) := by
  induction args with
  | nil =>
    intro pre rest n c c' hc _ hnull hroom hloop
    rw [List.map_nil, List.nil_append] at hc
    rw [List.takeWhile_nil, List.append_nil]
    have hlen : (pre.map some).length = pre.length := List.length_map _ _
    cases rest with
    | nil => simp at hroom
    | cons r rs =>
      cases n with
      | zero =>
        rw [redirect_loop] at hloop
        rw [← Run.ok.inj hloop, hc, Nat.add_zero]
        apply read_argv_of_takeWhile
        have hset := set_length_append (pre.map some) rs r none
        rw [hlen] at hset
        rw [hset, takeWhile_map_some_append_none]
      | succ n =>
        have hr : r = none := by
          have := hnull 0 (by simp)
          simpa using this
        subst hr
        have hj : c.parsed_command.getD pre.length none = none := by
          have := getD_append_length (pre.map some) rs none none
          rw [hlen] at this
          rw [hc]; exact this
        obtain ⟨htw, hj'⟩ := redirect_loop_frozen fs (n + 1) pre.length pre.length c c' hj
          (Nat.le_refl _) hloop
        apply read_argv_of_takeWhile
        rw [takeWhile_set_of_none _ pre.length _ none hj' (by omega), htw, hc,
          takeWhile_map_some_append_none]
  | cons t args ih =>
    intro pre rest n c c' hc hn hnull hroom hloop
    have hlen : (pre.map some).length = pre.length := List.length_map _ _
    rw [List.map_cons, List.cons_append] at hc
    have hcur : c.parsed_command.getD pre.length none = some t := by
      have := getD_append_length (pre.map some) (args.map some ++ rest) (some t) none
      rw [hlen] at this
      rw [hc]; exact this
    cases n with
    | zero => simp at hn
    | succ n =>
      obtain ⟨c₁, hstep, hrest⟩ := redirect_loop_succ_ok fs n pre.length c c' hloop
      by_cases hop : t = ['>'] ∨ t = ['<']
      · have hset := (redirect_step_operator fs c c₁ pre.length t hcur hop hstep).1
        have hmid : c.parsed_command.set pre.length none
            = pre.map some ++ none :: (args.map some ++ rest) := by
          have := set_length_append (pre.map some) (args.map some ++ rest) (some t) none
          rw [hlen] at this
          rw [hc]; exact this
        have hj₀ : (c.parsed_command.set pre.length none).getD pre.length none = none :=
          getD_set_none_self _ _
        have hj₁ : c₁.parsed_command.getD pre.length none = none := by
          rw [hset, getD_set_ne _ _ _ _ _ (by omega)]; exact hj₀
        have htw₁ : c₁.parsed_command.takeWhile Option.isSome = pre.map some := by
          rw [hset, takeWhile_set_of_none _ pre.length _ none hj₀ (by omega), hmid,
            takeWhile_map_some_append_none]
        obtain ⟨htw, hj'⟩ := redirect_loop_frozen fs n (pre.length + 1) pre.length c₁ c' hj₁
          (by omega) hrest
        have hnot : (decide (t ≠ ['>'] ∧ t ≠ ['<'])) = false := by
          rcases hop with h | h <;> simp [h]
        rw [List.takeWhile_cons, hnot]
        simp only [Bool.false_eq_true, if_false, List.append_nil]
        apply read_argv_of_takeWhile
        rw [takeWhile_set_of_none _ pre.length _ none hj' (by omega), htw, htw₁]
      · have hout : t ≠ ['>'] := fun h => hop (Or.inl h)
        have hin : t ≠ ['<'] := fun h => hop (Or.inr h)
        rw [redirect_step_plain fs c pre.length t hcur hout hin] at hstep
        have hc₁ : c₁ = c := (Run.ok.inj hstep).symm
        subst hc₁
        have hc' : c₁.parsed_command = (pre ++ [t]).map some ++ (args.map some ++ rest) := by
          rw [hc]; simp
        have hlen' : (pre ++ [t]).length = pre.length + 1 := by simp
        have hn' : args.length ≤ n := by simpa using hn
        have hnull' : ∀ k, k < n - args.length → rest.getD k none = none := by
          intro k hk
          apply hnull k
          simp only [List.length_cons]
          omega
        have hroom' : n - args.length < rest.length := by
          simp only [List.length_cons] at hroom
          omega
        rw [← hlen'] at hrest
        have := ih (pre ++ [t]) rest n c₁ c' hc' hn' hnull' hroom' hrest
        have hyes : (decide (t ≠ ['>'] ∧ t ≠ ['<'])) = true := by
          simp [hout, hin]
        rw [List.takeWhile_cons, hyes]
        simp only [if_true]
        have hidx : pre.length + (n + 1) = (pre ++ [t]).length + n := by rw [hlen']; omega
        rw [hidx, this]
        simp

theorem redirect_step_operator_ok (fs : Files)
    (hall : ∀ path, fs.creat path = true ∧ fs.read path = true)
    (c : Redirected) (i : Nat) (tok path : List Char)
    (hcur : c.parsed_command.getD i none = some tok) (hop : tok = ['>'] ∨ tok = ['<'])
    (hlive : i + 1 < c.length)
    (hnext : c.parsed_command.getD (i + 1) none = some path) :
    ∃ c₁, redirect_step fs c i = Run.ok c₁ := by
  have hfreed : ¬ c.length ≤ i + 1 := by omega
  unfold redirect_step
  rw [hcur]
  dsimp only
  by_cases hout : tok = ['>']
  · rw [if_pos hout, hnext]
    dsimp only
    rw [if_neg hfreed, if_pos (hall path).1]
    exact ⟨_, rfl⟩
  · have hin : tok = ['<'] := hop.resolve_left hout
    rw [if_neg hout, if_pos hin, hnext]
    dsimp only
    rw [if_neg hfreed, if_pos (hall path).2]
    exact ⟨_, rfl⟩

/-- When every file opens and every operator the loop can meet has a token of
the line in the next slot, the loop of lines 269-299 runs to its end. -/
theorem redirect_loop_ok (fs : Files)
    (hall : ∀ path, fs.creat path = true ∧ fs.read path = true) (n : Nat) :
    ∀ (i : Nat) (c : Redirected),
      (∀ k tok, i ≤ k → k < i + n → c.parsed_command.getD k none = some tok →
        (tok = ['>'] ∨ tok = ['<']) →
        k + 1 < c.length ∧ ∃ path, c.parsed_command.getD (k + 1) none = some path) →
      ∃ c', redirect_loop fs n i c = Run.ok c' := by
  induction n with
  | zero =>
    intro i c _
    exact ⟨c, rfl⟩
  | succ n ih =>
    intro i c hq
    have hkeep : redirect_step fs c i = Run.ok c →
        ∃ c', redirect_loop fs (n + 1) i c = Run.ok c' := by
      intro hstep
      obtain ⟨c', hc'⟩ := ih (i + 1) c
        (fun k tok hk hk' htok hop => hq k tok (by omega) (by omega) htok hop)
      refine ⟨c', ?_⟩
      rw [redirect_loop, hstep]
      exact hc'
    cases hcur : c.parsed_command.getD i none with
    | none => exact hkeep (redirect_step_none fs c i hcur)
    | some tok =>
      by_cases hop : tok = ['>'] ∨ tok = ['<']
      · obtain ⟨hlive, path, hnext⟩ := hq i tok (Nat.le_refl _) (by omega) hcur hop
        obtain ⟨c₁, hstep⟩ :=
          redirect_step_operator_ok fs hall c i tok path hcur hop hlive hnext
        obtain ⟨hset, hlength⟩ := redirect_step_operator fs c c₁ i tok hcur hop hstep
        have hq₁ : ∀ k tok, i + 1 ≤ k → k < i + 1 + n →
            c₁.parsed_command.getD k none = some tok → (tok = ['>'] ∨ tok = ['<']) →
            k + 1 < c₁.length ∧ ∃ path, c₁.parsed_command.getD (k + 1) none = some path := by
          intro k tok' hk hk' htok hop'
          by_cases hk1 : k = i + 1
          · rw [hk1, hset, getD_set_none_self] at htok
            exact Option.noConfusion htok
          · rw [hset, getD_set_ne _ _ _ _ _ (by omega), getD_set_ne _ _ _ _ _ (by omega)] at htok
            rw [hset, hlength, getD_set_ne _ _ _ _ _ (by omega), getD_set_ne _ _ _ _ _ (by omega)]
            exact hq k tok' (by omega) (by omega) htok hop'
        obtain ⟨c', hc'⟩ := ih (i + 1) c₁ hq₁
        refine ⟨c', ?_⟩
        rw [redirect_loop, hstep]
        exact hc'
      · have hout : tok ≠ ['>'] := fun h => hop (Or.inl h)
        have hin : tok ≠ ['<'] := fun h => hop (Or.inr h)
        exact hkeep (redirect_step_plain fs c i tok hcur hout hin)

theorem getD_map_some_append_lt (args : List (List Char)) (rest : List (Option (List Char)))
    (k : Nat) (hk : k < args.length) :
    (args.map some ++ rest).getD k none = some (args.getD k []) := by
  induction args generalizing k with
  | nil => simp at hk
  | cons t args ih =>
    cases k with
    | zero => rfl
    | succ k =>
      have hk' : k < args.length := by simpa using hk
      exact ih k hk'

theorem getD_map_some_append_ge (args : List (List Char)) (rest : List (Option (List Char)))
    (k : Nat) (hk : args.length ≤ k) :
    (args.map some ++ rest).getD k none = rest.getD (k - args.length) none := by
  induction args generalizing k with
  | nil => rfl
  | cons t args ih =>
    cases k with
    | zero => simp at hk
    | succ k =>
      have hk' : args.length ≤ k := by simpa using hk
      have := ih k hk'
      simpa using this

/-- C4 (as amended): the block holds the program name, the argument tokens and
then, up to index `length`, only `NULL` (the slot of a stripped `&`), with
index `length` inside the block.  If the child reaches `execvp`, the argument
vector it hands over is the program name followed by the arguments that
precede the first `<` or `>`: the operators and their filenames are not
passed, and neither is any token after the first operator.  The child does
reach `execvp` when every file opens and every operator among the arguments is
followed by another argument. -/
theorem exec_argv_until_first_redirection (fs : Files) (p : Process) (getpid : Int)
    (prog : List Char) (args : List (List Char)) (rest : List (Option (List Char)))
    (hcmd : p.sh.parsed_command = some prog :: (args.map some ++ rest))
    (hlen : args.length + 1 ≤ p.sh.length)
    (hnull : ∀ k, k < p.sh.length - (args.length + 1) → rest.getD k none = none)
    (hroom : p.sh.length - (args.length + 1) < rest.length) :
    (∀ e, child_flow fs p getpid = Run.ok e →
        e.argv = prog :: args.takeWhile fun t => decide (t ≠ ['>'] ∧ t ≠ ['<'])) ∧
      ((∀ path, fs.creat path = true ∧ fs.read path = true) →
        (∀ k, k < args.length → (args.getD k [] = ['>'] ∨ args.getD k [] = ['<']) →
          k + 1 < args.length) →
        ∃ e, child_flow fs p getpid = Run.ok e) := by
  have hsub : p.sh.length - 1 - args.length = p.sh.length - (args.length + 1) := by omega
  refine ⟨?_, ?_⟩
  · intro e he
    unfold child_flow at he
    dsimp only at he
    cases hloop : redirect_loop fs (p.sh.length - 1) 1
        { parsed_command := p.sh.parsed_command, length := p.sh.length, stdin := none,
          stdout := none } with
    | ok c' =>
      rw [hloop] at he
      have hargv := congrArg Exec.argv (Run.ok.inj he)
      dsimp only at hargv
      rw [← hargv]
      have hidx : p.sh.length = [prog].length + (p.sh.length - 1) := by
        simp only [List.length_singleton]; omega
      have := redirect_loop_argv fs args [prog] rest (p.sh.length - 1)
        { parsed_command := p.sh.parsed_command, length := p.sh.length, stdin := none,
          stdout := none } c'
        (by rw [hcmd]; rfl) (by omega)
        (by rw [hsub]; exact hnull) (by rw [hsub]; exact hroom) hloop
      rw [← hidx] at this
      rw [this]
      rfl
    | blocked pid => rw [hloop] at he; exact Run.noConfusion he
    | out_of_bounds index => rw [hloop] at he; exact Run.noConfusion he
    | exited code => rw [hloop] at he; exact Run.noConfusion he
    | killed => rw [hloop] at he; exact Run.noConfusion he
    | overrun => rw [hloop] at he; exact Run.noConfusion he
    | freed_read => rw [hloop] at he; exact Run.noConfusion he
  · intro hall hnext
    have hq : ∀ k tok, 1 ≤ k → k < 1 + (p.sh.length - 1) →
        p.sh.parsed_command.getD k none = some tok → (tok = ['>'] ∨ tok = ['<']) →
        k + 1 < p.sh.length ∧ ∃ path, p.sh.parsed_command.getD (k + 1) none = some path := by
      intro k tok hk hk' htok hop
      obtain ⟨m, rfl⟩ : ∃ m, k = m + 1 := ⟨k - 1, by omega⟩
      rw [hcmd, List.getD_cons_succ] at htok
      rw [hcmd, List.getD_cons_succ]
      by_cases hm : m < args.length
      · rw [getD_map_some_append_lt args rest m hm] at htok
        have hargs : args.getD m [] = tok := Option.some.inj htok
        have hm' := hnext m hm (by rw [hargs]; exact hop)
        exact ⟨by omega, _, getD_map_some_append_lt args rest (m + 1) hm'⟩
      · rw [getD_map_some_append_ge args rest m (by omega),
          hnull (m - args.length) (by omega)] at htok
        exact Option.noConfusion htok
    obtain ⟨c', hc'⟩ := redirect_loop_ok fs hall (p.sh.length - 1) 1
      { parsed_command := p.sh.parsed_command, length := p.sh.length, stdin := none,
        stdout := none } hq
    unfold child_flow
    dsimp only
    rw [hc']
    exact ⟨_, rfl⟩

/-- C4 (as amended) at the line `sort -r < in -u`: the child reaches `execvp`
with the vector `sort -r`. -/
theorem exec_argv_until_first_redirection_witness :
    ∃ e, child_flow all_files (launched sort_line) 8 = Run.ok e ∧
      e.argv = ["sort".toList, "-r".toList] := by
  have h := exec_argv_until_first_redirection all_files (launched sort_line) 8
    "sort".toList ["-r".toList, "<".toList, "in".toList, "-u".toList]
    (List.replicate 507 none) (by decide) (by decide)
    (fun k hk => (Nat.not_lt_zero k hk).elim) (by decide)
  obtain ⟨e, he⟩ := h.2 (fun _ => ⟨rfl, rfl⟩) (by decide)
  refine ⟨e, he, ?_⟩
  rw [h.1 e he]
  decide

/-- C4 (the claim as stated fails): for `sort < in -r` with `in` readable,
removing the operator and its filename leaves `sort -r`, but the child hands
`execvp` the vector `sort` alone: `-r` follows the slots set to `NULL` and is
never read. -/
theorem exec_argv_drops_later_arguments :
    ∃ e, forked_child all_files first_prompt (typed ["sort", "<", "in", "-r"] 8 [] []) 8
        = some (Run.ok e) ∧
      e.argv = ["sort".toList] ∧
      e.stdin = some "in".toList ∧
      strip_redirections ["sort".toList, "<".toList, "in".toList, "-r".toList]
        = ["sort".toList, "-r".toList] ∧
      e.argv ≠ strip_redirections ["sort".toList, "<".toList, "in".toList, "-r".toList] := by
  refine ⟨_, rfl, ?_, ?_, ?_, ?_⟩ <;> decide

/-- C8 at the table `[7, 0, 9]` with child 7 terminated and child 9 running. -/
theorem poll_and_reap_reports_witness :
    reported three_slots 0 = true ∧ reported three_slots 2 = false ∧
      (poll_and_reap three_slots).sh.array_noncompleted_background_processes = [0, 0, 9] ∧
      (poll_and_reap three_slots).stdout = [Output.background_done_exit 7 1] ∧
      (∀ i, (poll_and_reap three_slots).sh.array_noncompleted_background_processes.getD i 0
          = if reported three_slots i = true then 0
            else three_slots.sh.array_noncompleted_background_processes.getD i 0) :=
  ⟨by decide, by decide, by decide, by decide, (poll_and_reap_reports three_slots).2.2.1⟩

/-! ## The child of a launch -/

/-- A line typed after a longer one, with an operator as its last token: the
slot after the operator holds the freed pointer of the earlier line, and the
child's `open` on it is a read of freed memory, not an `execvp`. -/
theorem stale_slot_is_not_opened :
    child_flow all_files
        (launched_after [typed ["sort", "-r", "x", "y"] 8 [(8, 0)] []]
          (typed ["cat", "<"] 9 [(9, 256)] []))
        9
      = Run.freed_read := by
  decide

end Smallsh
